import Mathlib

/-!
Shallow embedding of the SP3-Conv BRR codec and signal pipeline.

The JavaScript source operates on JS numbers (IEEE-754 doubles) and typed
arrays.  Doubles are modelled as `ℚ` and machine integers as `Int` with
explicit wrapping where the source wraps.  Inside the codec every double
operation is exact (products of int16 values with the dyadic predictor
coefficients, their sums, divisions by powers of two, and the mean-squared
errors all stay well below 2^53 with dyadic denominators), so there the `ℚ`
model coincides with the float semantics bit for bit.  The input conversion
`x * 32767` of a general float and the peak/kernel arithmetic of the signal
stages are modelled in exact rational (respectively real) arithmetic; the
properties proved about those stages are stated at that level of the
modelling, and none of them depends on the rounding of an inexact product.
-/

namespace SP3

/-- Source `wrap16`: JS `(n << 16) >> 16`, i.e. sign-extension of the low 16 bits.
Valid model of the source for `|n| < 2³¹`, which holds at every call site. -/
def wrap16 (n : Int) : Int := (n + 32768) % 65536 - 32768

/-- Source `clamp16` restricted to integer arguments (in the codec every argument of
`clamp16` except the float-input conversion is an integer, and JS
`Math.round` is the identity on integers). -/
def clamp16 (n : Int) : Int :=
  if n > 32767 then 32767 else if n < -32768 then -32768 else n

/-- JS `Math.round`: round half toward positive infinity, `⌊x + 1/2⌋`. -/
def jsRound (q : ℚ) : Int := ⌊q + 1/2⌋

/-- Source `clamp16` on a (possibly fractional) JS number, as used on the
float-to-int16 conversion path. -/
def clamp16f (q : ℚ) : Int :=
  if q > 32767 then 32767 else if q < -32768 then -32768 else jsRound q

/-- JS arithmetic shift right by `k` on an integer: floor division by `2^k`. -/
def sar (n : Int) (k : Nat) : Int := Int.fdiv n (2 ^ k)

/-- JS `Math.round (num / 2^k)` for an integer `num`, computed exactly:
`⌊num/2^k + 1/2⌋ = ⌊(2·num + 2^k) / 2^(k+1)⌋`. -/
def roundDiv (num den : Int) : Int := Int.fdiv (2 * num + den) (2 * den)

/-- Source `getPrediction`: the four SPC700 predictor filters.  The source computes
`p1 * 0.9375` etc. in doubles; for int16 `p1`, `p2` those products and sums
are exact dyadic rationals, so the float computation plus `Math.round` equals
the exact rational rounding below.  The JS `switch` leaves the prediction at
0 for any filter other than 1, 2, 3. -/
def getPrediction (filter : Nat) (p1 p2 : Int) : Int :=
  wrap16 <| match filter with
    | 1 => roundDiv (15 * p1) 16
    | 2 => roundDiv (61 * p1 - 30 * p2) 32
    | 3 => roundDiv (115 * p1 - 52 * p2) 64
    | _ => 0

/-! ## BRR decoder (`decodeBRR`) -/

/-- Sign extension of a 4-bit nibble: `(nibble & 8) ? nibble - 16 : nibble`. -/
def sxt4 (nib : Nat) : Int :=
  if nib &&& 8 ≠ 0 then (nib : Int) - 16 else (nib : Int)

/-- The two sequential 15-bit wrap `if`s of the decoder:
`if (sample > 16383) sample -= 32768; if (sample < -16384) sample += 32768;` -/
def wrap15 (s : Int) : Int :=
  let s1 := if s > 16383 then s - 32768 else s
  if s1 < -16384 then s1 + 32768 else s1

/-- One nibble of the decoder: base sample from shift, add prediction,
clamp to int16, 15-bit wrap.  Returns the new `p1`. -/
def decSample (shiftAmount filter : Nat) (nib : Nat) (p1 p2 : Int) : Int :=
  let signedNibble := sxt4 nib
  let base : Int :=
    if shiftAmount ≤ 12 then sar (signedNibble * 2 ^ shiftAmount) 1
    else if signedNibble < 0 then -2048 else 2048
  wrap15 (clamp16 (base + getPrediction filter p1 p2))

/-- The inner decoder loop over the 8 data bytes of one block: each byte
yields the high-nibble sample then the low-nibble sample; each stored PCM
value is `wrap16(p1 * 2)`.  Returns the samples and the final history. -/
def decodeBlockBytes (shiftAmount filter : Nat) :
    List Nat → Int → Int → List Int × Int × Int
  | [], p1, p2 => ([], p1, p2)
  | b :: rest, p1, p2 =>
    let s1 := decSample shiftAmount filter (b >>> 4) p1 p2
    let s2 := decSample shiftAmount filter (b &&& 0x0F) s1 p1
    let r := decodeBlockBytes shiftAmount filter rest s2 s1
    (wrap16 (s1 * 2) :: wrap16 (s2 * 2) :: r.1, r.2)

/-- The 8 data bytes of a block (`block[i+1]` for `i < 8`). -/
def dataBytes (blk : List Nat) : List Nat :=
  (List.range 8).map fun i => blk.getD (i + 1) 0

/-- The outer decoder loop over blocks, threading the predictor history. -/
def decodeBlocks : List (List Nat) → Int → Int → List Int
  | [], _, _ => []
  | blk :: rest, p1, p2 =>
    let header := blk.headD 0
    let shiftAmount := (header >>> 4) &&& 0x0F
    let filter := (header >>> 2) &&& 0x03
    let r := decodeBlockBytes shiftAmount filter (dataBytes blk) p1 p2
    r.1 ++ decodeBlocks rest r.2.1 r.2.2

/-- Source `decodeBRR` down to the int16 sample stream (the `pcmSamples` array). -/
def decodeBRRInt (brrBlocks : List (List Nat)) : List Int :=
  decodeBlocks brrBlocks 0 0

/-- The final float output of `decodeBRR`: each int16 sample divided by 32768.0
(exact in doubles, hence modelled exactly in `ℚ`). -/
def decodeBRRFloat (brrBlocks : List (List Nat)) : List ℚ :=
  (decodeBRRInt brrBlocks).map fun s : Int => (s : ℚ) / 32768

/-! ## Claim C1: spec-side decoder

A second decoder written from the specification text: flatten the stream
into its per-nibble events in order (so the event at stream position
`blockIndex·16 + 2·pairIndex + {0,1}` is exactly the sample slot named by the claim),
and run the stated recurrence from `p1 = p2 = 0`. -/

/-- The per-nibble recurrence of claim C1: sign-extend the nibble from 4 bits;
base sample `(signed << shift) >> 1` for `shift ≤ 12`, else `±2048`; add the
prediction; clamp to int16; 15-bit wrap. -/
def specNibbleSample (shiftAmount filter : Nat) (nib : Nat) (p1 p2 : Int) : Int :=
  let signed : Int := if 8 ≤ nib then (nib : Int) - 16 else (nib : Int)
  let base : Int :=
    if shiftAmount ≤ 12 then Int.fdiv (signed * 2 ^ shiftAmount) 2
    else if signed < 0 then -2048 else 2048
  let s := clamp16 (base + getPrediction filter p1 p2)
  let s1 := if s > 16383 then s - 32768 else s
  if s1 < -16384 then s1 + 32768 else s1

/-- Advance the predictor history by one nibble event `(shift, filter, nibble)`:
`p2 = p1, p1 = sample`. -/
def specStep (e : Nat × Nat × Nat) (st : Int × Int) : Int × Int :=
  (specNibbleSample e.1 e.2.1 e.2.2 st.1 st.2, st.1)

/-- Emit `wrap16 (p1 · 2)` for each nibble event in stream order. -/
def scanSamples : Int × Int → List (Nat × Nat × Nat) → List Int
  | _, [] => []
  | st, e :: rest =>
    let st1 := specStep e st
    wrap16 (st1.1 * 2) :: scanSamples st1 rest

/-- The predictor history after a list of nibble events. -/
def scanState : Int × Int → List (Nat × Nat × Nat) → Int × Int
  | st, [] => st
  | st, e :: rest => scanState (specStep e st) rest

/-- The 16 nibble events of a byte list: high nibble then low nibble. -/
def entriesOfBytes (s f : Nat) (bytes : List Nat) : List (Nat × Nat × Nat) :=
  bytes.flatMap fun b => [(s, f, b >>> 4), (s, f, b &&& 0x0F)]

/-- The 16 nibble events of one block, tagged with its shift and filter. -/
def blockEntries (blk : List Nat) : List (Nat × Nat × Nat) :=
  entriesOfBytes ((blk.headD 0 >>> 4) &&& 0x0F) ((blk.headD 0 >>> 2) &&& 0x03)
    (dataBytes blk)

/-- The decoder as described by claim C1. -/
def specDecodeBRR (blocks : List (List Nat)) : List Int :=
  scanSamples (0, 0) (blocks.flatMap blockEntries)

/-- Well-formed block list: every byte fits in 8 bits (`Uint8Array` content). -/
def WfBlocks (blocks : List (List Nat)) : Prop :=
  ∀ blk ∈ blocks, ∀ b ∈ blk, b < 256

instance (blocks : List (List Nat)) : Decidable (WfBlocks blocks) :=
  inferInstanceAs (Decidable (∀ blk ∈ blocks, ∀ b ∈ blk, b < 256))

/-! ## BRR encoder

`processBlock` of the source runs a single pass over a 16-sample block.  In
`writeMode` it collects the nibbles into the data bytes; otherwise it
returns the mean squared error `totalError / 16` (a JS float division, exact
for the integer totals that occur).  The embedding computes nibbles, total
error and the final history in one pass and lets callers project the parts
the two source modes return. -/

/-- One iteration of the `processBlock` loop.  Returns the packed 4-bit nibble
`quantizedNibble & 0x0F`, the addition this sample makes to `totalError` (squared
error plus the out-of-range penalty), and the new `p1`
(`wrappedReconstructedSample`); the new `p2` is the old `p1`. -/
def encStep (shiftAmount filter : Nat) (pcmSample : Int) (p1 p2 : Int) :
    Nat × Int × Int :=
  let prediction := getPrediction filter p1 p2
  let vlin := sar prediction 1
  let diff0 := sar pcmSample 1 - vlin
  let diff_abs := diff0.natAbs
  let diff : Int :=
    if 16384 < diff_abs ∧ diff_abs < 32768 then
      if 0 < diff0 then diff0 - 32768 else diff0 + 32768
    else diff0
  let step : Nat := 1 <<< shiftAmount
  let dp_quant_offset : Int := diff + ((step <<< 2 : Nat) : Int) + ((step >>> 2 : Nat) : Int)
  let c : Int :=
    if 0 < dp_quant_offset then
      let c0 : Int :=
        if 1 < step then Int.tdiv dp_quant_offset ((step / 2 : Nat) : Int)
        else dp_quant_offset * 2
      if 15 < c0 then 15 else c0
    else 0
  let quantizedNibble := c - 8
  let dp_dequant := sar (quantizedNibble * 2 ^ shiftAmount) 1
  let halfSample := vlin + dp_dequant
  let clampedHalf := clamp16 halfSample
  let reconstructedSample := clampedHalf * 2
  let penalty : Int :=
    if 32767 < reconstructedSample ∨ reconstructedSample < -32768 then 999999999 else 0
  let wrappedReconstructedSample := wrap16 reconstructedSample
  let error := pcmSample - wrappedReconstructedSample
  ((quantizedNibble % 16).toNat, penalty + error * error, wrappedReconstructedSample)

/-- The `processBlock` loop over the block samples: nibble list, total error,
and the final `(p1, p2)` history. -/
def processSamples (shiftAmount filter : Nat) :
    List Int → Int → Int → List Nat × Int × Int × Int
  | [], p1, p2 => ([], 0, p1, p2)
  | pcmSample :: rest, p1, p2 =>
    let r := encStep shiftAmount filter pcmSample p1 p2
    let t := processSamples shiftAmount filter rest r.2.2 p1
    (r.1 :: t.1, r.2.1 + t.2.1, t.2.2)

/-- The nibble packing of `writeMode`: sample `2k` into the high nibble of
data byte `k`, sample `2k+1` into its low nibble. -/
def packNibbles : List Nat → List Nat
  | hi :: lo :: rest => ((hi <<< 4) ||| lo) :: packNibbles rest
  | [hi] => [hi <<< 4]
  | [] => []

/-- Source `processBlock`: data bytes (`writeMode` output, without the header slot),
mean squared error (`totalError / 16`), and final history. -/
def processBlock (pcmBlock : List Int) (shiftAmount filter : Nat) (p1 p2 : Int) :
    List Nat × ℚ × Int × Int :=
  let r := processSamples shiftAmount filter pcmBlock p1 p2
  (packNibbles r.1, ((r.2.1 : Int) : ℚ) / 16, r.2.2)

/-- The mean squared error of one trial encode (`result.error`). -/
def trialError (pcmBlock : List Int) (p1 p2 : Int) (s f : Nat) : ℚ :=
  (processBlock pcmBlock s f p1 p2).2.1

/-- The 52 candidates of the nested loops in `findAndEncodeBlock`, in search
order: shift `0..12` outer, filter `0..3` inner. -/
def candidates : List (Nat × Nat) :=
  (List.range 13).flatMap fun s => (List.range 4).map fun f => (s, f)

/-- One comparison of the search loop: `result.error < bestError`, where
`none` stands for the initial `bestError = Infinity` (every real error is
below it). -/
def searchStep (pcmBlock : List Int) (p1 p2 : Int)
    (acc : Option ℚ × Nat × Nat) (sf : Nat × Nat) : Option ℚ × Nat × Nat :=
  let e := trialError pcmBlock p1 p2 sf.1 sf.2
  match acc.1 with
  | none => (some e, sf)
  | some b => if e < b then (some e, sf) else acc

/-- The `(bestShift, bestFilter)` pair selected by the search in `findAndEncodeBlock`. -/
def findParams (pcmBlock : List Int) (p1 p2 : Int) : Nat × Nat :=
  (candidates.foldl (searchStep pcmBlock p1 p2) (none, 0, 0)).2

/-- Source `findAndEncodeBlock`: re-encode with the best parameters in write mode
and set `block[0] = (bestShift << 4) | (bestFilter << 2)`. -/
def findAndEncodeBlock (pcmBlock : List Int) (p1 p2 : Int) :
    List Nat × Int × Int :=
  let sf := findParams pcmBlock p1 p2
  let r := processBlock pcmBlock sf.1 sf.2 p1 p2
  (((sf.1 <<< 4) ||| (sf.2 <<< 2)) :: r.1, r.2.2)

/-- The float-to-int16 conversion of `encodeBRR`: `clamp16(x * 32767)` (the
`Int16Array` store does not wrap further, the value is already in range). -/
def floatToPcm (x : ℚ) : Int := clamp16f (x * 32767)

/-- Zero-pad on the right to a multiple of 16 samples. -/
def padPcm (pcm : List Int) : List Int :=
  pcm ++ List.replicate ((16 - pcm.length % 16) % 16) 0

/-- The body of the `encodeBRR` block loop, recursing on the number of
16-sample chunks still to process (`for i += 16` over the padded data runs
exactly `paddedLength / 16` times). -/
def encodeChunks : Nat → List Int → Int → Int → List (List Nat) × Int × Int
  | 0, _, p1, p2 => ([], p1, p2)
  | n + 1, pcm, p1, p2 =>
    let r := findAndEncodeBlock (pcm.take 16) p1 p2
    let t := encodeChunks n (pcm.drop 16) r.2.1 r.2.2
    (r.1 :: t.1, t.2)

/-- The `encodeBRR` block loop over the padded data, threading `(p1, p2)`. -/
def encodeLoop (pcm : List Int) (p1 p2 : Int) : List (List Nat) × Int × Int :=
  encodeChunks (pcm.length / 16) pcm p1 p2

/-- Source step `brrBlocks[brrBlocks.length - 1][0] |= 0x01`. -/
def markEnd : List Nat → List Nat
  | [] => []
  | h :: t => (h ||| 0x01) :: t

/-- Set the END bit on the last block of a stream (no-op when empty). -/
def setEndBit : List (List Nat) → List (List Nat)
  | [] => []
  | [blk] => [markEnd blk]
  | blk :: rest => blk :: setEndBit rest

/-- Source `encodeBRR` generalized over the initial predictor history (the source
hard-codes `p1 = 0, p2 = 0`; the parameters make streaming claims statable). -/
def encodeBRRFrom (p1 p2 : Int) (x : List Rat) : List (List Nat) :=
  setEndBit (encodeLoop (padPcm (x.map floatToPcm)) p1 p2).1

/-- Source `encodeBRR`: convert, pad, encode block by block from zero history, and
set the END bit on the final block. -/
def encodeBRR (x : List Rat) : List (List Nat) := encodeBRRFrom 0 0 x

/-- The `(p1, p2)` history after the `encodeBRR` loop, for carrying into a
second streaming call. -/
def encodeStateAfter (x : List Rat) : Int × Int :=
  (encodeLoop (padPcm (x.map floatToPcm)) 0 0).2

/-! ## Search-order machinery (for the optimality claim) -/

/-- Strict search order on `(shift, filter)` candidates: lower shift first,
then lower filter. -/
def lexlt (a b : Nat × Nat) : Prop := a.1 < b.1 ∨ (a.1 = b.1 ∧ a.2 < b.2)

instance (a b : Nat × Nat) : Decidable (lexlt a b) := by
  unfold lexlt
  infer_instance

/-- The running-minimum recursion that `candidates.foldl searchStep` performs
once a real error has replaced the initial `Infinity`. -/
def selAux {α : Type} (err : α → ℚ) : List α → ℚ → α → ℚ × α
  | [], b, sel => (b, sel)
  | x :: xs, b, sel =>
    if err x < b then selAux err xs (err x) x else selAux err xs b sel

/-- Set the END bit of the block at index `i` (used to state how the
two-call stream relates to the single-call stream). -/
def orEndAt : Nat → List (List Nat) → List (List Nat)
  | _, [] => []
  | 0, blk :: rest => markEnd blk :: rest
  | n + 1, blk :: rest => blk :: orEndAt n rest

/-! ## Mid/Side coupled normalization (`normalizeCoupled`) -/

/-- The peak scan loop: `if (absSample > overallPeak) overallPeak = absSample`. -/
def peakFold (sig : List Rat) (acc : Rat) : Rat :=
  sig.foldl (fun acc v => if |v| > acc then |v| else acc) acc

/-- The value `overallPeak` after scanning the mid signal and then the side signal,
starting from 0. -/
def overallPeak (midSignal sideSignal : List Rat) : Rat :=
  peakFold sideSignal (peakFold midSignal 0)

/-- Source `normalizeCoupled`: if the overall peak exceeds 0.95, multiply every
sample of both signals by the same `multiplier = 0.95 / peak`; otherwise
leave both signals unchanged (the source mutates in place and returns the
pair). -/
def normalizeCoupled (midSignal sideSignal : List Rat) : List Rat × List Rat :=
  let peak := overallPeak midSignal sideSignal
  if peak > 0.95 then
    let multiplier := 0.95 / peak
    (midSignal.map fun v => v * multiplier, sideSignal.map fun v => v * multiplier)
  else (midSignal, sideSignal)

/-! ## Gauss filter (`applyGaussFilter`)

The source keeps a one-sample delay (`prev`) so each output is written one
iteration after it is computed; the net effect is: output 0 is the left edge
formula, outputs `1..N-2` the interior three-tap formula, output `N-1` the
right edge formula.  `gaussMain` produces the outputs for centers `1..N-1`
from the sliding window `(x[i-1], x[i], rest)`. -/

/-- Coefficient `c0 = 372 / 2048` (exact in doubles). -/
def gaussC0 : Rat := 372 / 2048

/-- Coefficient `c1 = 1304 / 2048` (exact in doubles). -/
def gaussC1 : Rat := 1304 / 2048

/-- Outputs for centers `1..N-1`: interior taps, then the right edge. -/
def gaussMain (pm1 p0 : Rat) : List Rat → List Rat
  | [] => [gaussC0 * pm1 + (gaussC1 + gaussC0) * p0]
  | p1 :: rest => (gaussC0 * pm1 + gaussC1 * p0 + gaussC0 * p1) :: gaussMain p0 p1 rest

/-- Source `applyGaussFilter`: length-preserving three-tap FIR with edge handling;
inputs of length < 2 are returned as an unchanged copy. -/
def applyGaussFilter (pcmData : List Rat) : List Rat :=
  match pcmData with
  | [] => []
  | [a] => [a]
  | a :: b :: rest => ((gaussC1 + gaussC0) * a + gaussC0 * b) :: gaussMain a b rest

/-! ## Downsampler (`manualDownsample`)

The sample rates reach this function as JS numbers, and the divisions
`ratio = originalSr / targetSr` and `N / ratio` and the decimation products
`i * ratio` are binary64 operations whose rounding decides the output
length and the decimation indices (`Math.floor` itself is exact on
doubles).  IEEE 754 requires these operations to be correctly rounded, so
each is modelled as `roundToFloat64` of the exact rational result (the
operands at every step — integers below 2^53 and previously rounded
doubles — are themselves exact rationals).  Only the kernel and the
convolved sample values, which involve the transcendental and
implementation-defined `Math.sin` / `Math.cos`, stay idealized over `ℝ`;
they never feed back into any length or index. -/

/-- Number of binary digits of `n` (`⌊log2 n⌋ + 1` for positive `n`),
computed with a structural fuel argument (the fuel `n` bounds the number of
halvings) so that concrete values reduce inside the kernel. -/
def bitLenAux : Nat → Nat → Nat
  | 0, _ => 0
  | fuel + 1, n => if n = 0 then 0 else bitLenAux fuel (n / 2) + 1

/-- Bit length of a natural number. -/
def bitLen (n : Nat) : Nat := bitLenAux n n

/-- For positive `a`, the exponent `e` with `2^e ≤ a < 2^(e+1)`.  The bit
lengths of numerator and denominator pin `e` down to `{d - 1, d}` where
`d = bitLen num - bitLen den`; one exact comparison picks the right one. -/
def floorLog2 (a : ℚ) : Int :=
  let d : Int := (bitLen a.num.natAbs : Int) - (bitLen a.den : Int)
  if (2 : ℚ) ^ d ≤ a then d else d - 1

/-- Round an exact rational to the nearest IEEE-754 binary64 value
(round-to-nearest, ties-to-even), for results in the normal, finite range
(every value at the call sites is).  With `e = ⌊log2 |q|⌋` the binary64
values around `|q|` are the multiples of `2^(e-52)`; the 53-bit mantissa
`|q| / 2^(e-52)` is computed as the exact integer quotient `a / b` with
remainder and rounded to the nearest integer, ties to even.  A carry to
`2^53` yields `2^(e+1)`, which is again exactly representable, so no
renormalization is needed.  Since IEEE division and multiplication are
correctly rounded, applying this to the exact rational result models the
corresponding JS double operation exactly. -/
def roundToFloat64 (q : ℚ) : ℚ :=
  if q = 0 then 0
  else
    let e : Int := floorLog2 |q|
    let shift : Int := 52 - e
    let a : Nat := if 0 ≤ shift then q.num.natAbs <<< shift.toNat else q.num.natAbs
    let b : Nat := if 0 ≤ shift then q.den else q.den <<< (-shift).toNat
    let n : Nat := a / b
    let r : Nat := a % b
    let mant : Nat :=
      if 2 * r < b then n
      else if b < 2 * r then n + 1
      else if n % 2 = 0 then n else n + 1
    let mag : ℚ := (mant : ℚ) * (2 : ℚ) ^ (e - 52)
    if q < 0 then -mag else mag

/-- Source constant `FIR_TAPS = 64`. -/
def firTaps : Nat := 64

/-- Source `generateFirCoefficients`: windowed-sinc low-pass kernel, normalized to
unit sum. -/
noncomputable def generateFirCoefficients (originalSr targetSr taps : Nat) : List ℝ :=
  let normalizedCutoff : ℝ := ((targetSr : ℝ) / 2) / originalSr
  let raw : List ℝ := (List.range taps).map fun i =>
    let x : ℝ := (i : ℝ) - ((taps : ℝ) - 1) / 2
    let sinc : ℝ :=
      if x = 0 then 1
      else Real.sin (2 * Real.pi * normalizedCutoff * x) / (2 * Real.pi * normalizedCutoff * x)
    let blackman : ℝ := 0.42 - 0.5 * Real.cos (2 * Real.pi * i / ((taps : ℝ) - 1)) +
      0.08 * Real.cos (4 * Real.pi * i / ((taps : ℝ) - 1))
    sinc * blackman
  raw.map fun c => c / raw.sum

/-- Source `manualDownsample`: zero-padded convolution with the generated
kernel, then decimation `result[i] = filteredSignal[Math.floor(i * ratio)]`
for `i < newLength`, where `ratio = originalSr / targetSr` and
`newLength = Math.floor(N / ratio)` are binary64 computations, modelled
with `roundToFloat64` after each operation exactly as the doubles behave
(`Math.floor` of a nonnegative double is its exact integer floor). -/
noncomputable def manualDownsample (signalData : List ℝ)
    (originalSampleRate targetSampleRate : Nat) : List ℝ :=
  let ratio : ℚ := roundToFloat64 ((originalSampleRate : ℚ) / targetSampleRate)
  let newLength : Nat := ⌊roundToFloat64 ((signalData.length : ℚ) / ratio)⌋₊
  let firCoeffs := generateFirCoefficients originalSampleRate targetSampleRate firTaps
  let halfCoeffsLen := firCoeffs.length / 2
  let filteredSignal : List ℝ := (List.range signalData.length).map fun (i : Nat) =>
    (List.range firCoeffs.length).foldl (fun acc (j : Nat) =>
      let sampleIndex : Int := (i : Int) - (halfCoeffsLen : Int) + (j : Int)
      if 0 ≤ sampleIndex ∧ sampleIndex < signalData.length then
        acc + signalData.getD sampleIndex.toNat 0 * firCoeffs.getD j 0
      else acc) 0
  (List.range newLength).map fun (i : Nat) =>
    filteredSignal.getD (⌊roundToFloat64 ((i : ℚ) * ratio)⌋₊) 0

lemma getD_mem_or_eq (l : List Nat) (i d : Nat) : l.getD i d ∈ l ∨ l.getD i d = d := by
  induction l generalizing i with
  | nil => right; rfl
  | cons a t ih =>
    cases i with
    | zero => left; simp [List.getD_cons_zero]
    | succ j =>
      rw [List.getD_cons_succ]
      rcases ih j with h | h
      · left; exact List.mem_cons_of_mem _ h
      · right; exact h

lemma dataBytes_lt_256 {blk : List Nat} (h : ∀ b ∈ blk, b < 256) :
    ∀ b ∈ dataBytes blk, b < 256 := by
  intro b hb
  simp only [dataBytes, List.mem_map, List.mem_range] at hb
  obtain ⟨i, _, rfl⟩ := hb
  rcases getD_mem_or_eq blk (i + 1) 0 with hm | he
  · exact h _ hm
  · omega

lemma sxt4_eq_specSigned (nib : Nat) (h : nib < 16) :
    sxt4 nib = if 8 ≤ nib then (nib : Int) - 16 else (nib : Int) := by
  unfold sxt4
  interval_cases nib <;> decide

lemma specNibbleSample_eq_decSample (s f nib : Nat) (p1 p2 : Int) (h : nib < 16) :
    specNibbleSample s f nib p1 p2 = decSample s f nib p1 p2 := by
  simp only [specNibbleSample, decSample, wrap15, sar, sxt4_eq_specSigned nib h, pow_one]

lemma scanSamples_append (l1 l2 : List (Nat × Nat × Nat)) :
    ∀ st, scanSamples st (l1 ++ l2) =
      scanSamples st l1 ++ scanSamples (scanState st l1) l2 := by
  induction l1 with
  | nil => intro st; rfl
  | cons e t ih => intro st; simp [scanSamples, scanState, ih]

lemma shiftRight4_lt_16 {b : Nat} (h : b < 256) : b >>> 4 < 16 := by
  rw [Nat.shiftRight_eq_div_pow]
  omega

lemma and15_lt_16 (b : Nat) : b &&& 0x0F < 16 :=
  Nat.lt_succ_of_le (Nat.le_of_lt_succ (Nat.lt_succ_of_le (Nat.and_le_right)))

lemma entriesOfBytes_cons (s f b : Nat) (rest : List Nat) :
    entriesOfBytes s f (b :: rest) =
      (s, f, b >>> 4) :: (s, f, b &&& 0x0F) :: entriesOfBytes s f rest := by
  simp [entriesOfBytes, List.flatMap_cons]

lemma decodeBlockBytes_eq_scan (s f : Nat) :
    ∀ (bytes : List Nat) (p1 p2 : Int), (∀ b ∈ bytes, b < 256) →
      (decodeBlockBytes s f bytes p1 p2).1 =
          scanSamples (p1, p2) (entriesOfBytes s f bytes) ∧
        (decodeBlockBytes s f bytes p1 p2).2 =
          scanState (p1, p2) (entriesOfBytes s f bytes) := by
  intro bytes
  induction bytes with
  | nil => intro p1 p2 _; exact ⟨rfl, rfl⟩
  | cons b rest ih =>
    intro p1 p2 hwf
    have hb : b < 256 := hwf b (by simp)
    have hrest : ∀ x ∈ rest, x < 256 := fun x hx => hwf x (by simp [hx])
    have h1 : specNibbleSample s f (b >>> 4) p1 p2 = decSample s f (b >>> 4) p1 p2 :=
      specNibbleSample_eq_decSample _ _ _ _ _ (shiftRight4_lt_16 hb)
    have h2 : ∀ q1 q2 : Int,
        specNibbleSample s f (b &&& 0x0F) q1 q2 = decSample s f (b &&& 0x0F) q1 q2 :=
      fun q1 q2 => specNibbleSample_eq_decSample _ _ _ _ _ (and15_lt_16 b)
    obtain ⟨ihs, iht⟩ := ih (decSample s f (b &&& 0x0F) (decSample s f (b >>> 4) p1 p2) p1)
      (decSample s f (b >>> 4) p1 p2) hrest
    rw [entriesOfBytes_cons]
    constructor
    · simp only [decodeBlockBytes, scanSamples, scanState, specStep, h1, h2, ihs]
    · simp only [decodeBlockBytes, scanSamples, scanState, specStep, h1, h2, iht]

lemma decodeBlocks_eq_scan :
    ∀ (blocks : List (List Nat)) (p1 p2 : Int), WfBlocks blocks →
      decodeBlocks blocks p1 p2 = scanSamples (p1, p2) (blocks.flatMap blockEntries) := by
  intro blocks
  induction blocks with
  | nil => intro p1 p2 _; rfl
  | cons blk rest ih =>
    intro p1 p2 hwf
    have hblk : ∀ b ∈ dataBytes blk, b < 256 :=
      dataBytes_lt_256 (hwf blk (by simp))
    have hrest : WfBlocks rest := fun x hx => hwf x (by simp [hx])
    obtain ⟨hs, ht⟩ := decodeBlockBytes_eq_scan
      ((blk.headD 0 >>> 4) &&& 0x0F) ((blk.headD 0 >>> 2) &&& 0x03)
      (dataBytes blk) p1 p2 hblk
    simp only [decodeBlocks, List.flatMap_cons, scanSamples_append]
    rw [hs, ht, blockEntries, ih _ _ hrest]

lemma decodeBlockBytes_length (s f : Nat) :
    ∀ (bytes : List Nat) (p1 p2 : Int),
      (decodeBlockBytes s f bytes p1 p2).1.length = 2 * bytes.length := by
  intro bytes
  induction bytes with
  | nil => intro p1 p2; rfl
  | cons b rest ih =>
    intro p1 p2
    simp only [decodeBlockBytes, List.length_cons]
    rw [ih]
    ring

lemma decodeBlocks_length :
    ∀ (blocks : List (List Nat)) (p1 p2 : Int),
      (decodeBlocks blocks p1 p2).length = 16 * blocks.length := by
  intro blocks
  induction blocks with
  | nil => intro p1 p2; rfl
  | cons blk rest ih =>
    intro p1 p2
    simp only [decodeBlocks, List.length_append, List.length_cons]
    rw [ih, decodeBlockBytes_length]
    have : (dataBytes blk).length = 8 := by simp [dataBytes]
    rw [this]
    ring

/-- C1: for every ordered list of 9-byte BRR blocks, `decodeBRR` returns
exactly `blocks·16` int16 samples, and they are precisely the samples of the
per-nibble recurrence of the claim, high nibble before low nibble, run from
`p1 = p2 = 0` in stream order, i.e. with the sample of block `blockIndex`,
data-byte `pairIndex`, nibble `{0,1}` stored at stream position
`blockIndex·16 + 2·pairIndex + {0,1}` (the flattening order of
`specDecodeBRR`). -/
theorem claim_C1 (blocks : List (List Nat)) (hwf : WfBlocks blocks) :
    decodeBRRInt blocks = specDecodeBRR blocks ∧
      (decodeBRRInt blocks).length = 16 * blocks.length :=
  ⟨decodeBlocks_eq_scan blocks 0 0 hwf, decodeBlocks_length blocks 0 0⟩

theorem claim_C1_witness :
    WfBlocks [[0x35, 0x12, 0xEF, 0x80, 0x7F, 0x00, 0x55, 0xAA, 0x01]] ∧
      (decodeBRRInt [[0x35, 0x12, 0xEF, 0x80, 0x7F, 0x00, 0x55, 0xAA, 0x01]] =
          specDecodeBRR [[0x35, 0x12, 0xEF, 0x80, 0x7F, 0x00, 0x55, 0xAA, 0x01]] ∧
        (decodeBRRInt [[0x35, 0x12, 0xEF, 0x80, 0x7F, 0x00, 0x55, 0xAA, 0x01]]).length =
          16 * [[0x35, 0x12, 0xEF, 0x80, 0x7F, 0x00, 0x55, 0xAA, 0x01]].length) :=
  ⟨by decide, claim_C1 _ (by decide)⟩

/-! ## Claim C7: decoder output range -/

lemma clamp16_bounds (n : Int) : -32768 ≤ clamp16 n ∧ clamp16 n ≤ 32767 := by
  unfold clamp16
  split_ifs <;> omega

lemma wrap15_bounds {c : Int} (h1 : -32768 ≤ c) (h2 : c ≤ 32767) :
    -16384 ≤ wrap15 c ∧ wrap15 c ≤ 16383 := by
  simp only [wrap15]
  split_ifs <;> omega

lemma decSample_bounds (s f nib : Nat) (p1 p2 : Int) :
    -16384 ≤ decSample s f nib p1 p2 ∧ decSample s f nib p1 p2 ≤ 16383 := by
  unfold decSample
  exact wrap15_bounds (clamp16_bounds _).1 (clamp16_bounds _).2

lemma wrap16_eq_self {n : Int} (h1 : -32768 ≤ n) (h2 : n ≤ 32767) : wrap16 n = n := by
  unfold wrap16
  omega

lemma stored_sample_bounds (s f nib : Nat) (p1 p2 : Int) :
    -32768 ≤ wrap16 (decSample s f nib p1 p2 * 2) ∧
      wrap16 (decSample s f nib p1 p2 * 2) ≤ 32766 := by
  obtain ⟨h1, h2⟩ := decSample_bounds s f nib p1 p2
  rw [wrap16_eq_self (by omega) (by omega)]
  omega

lemma decodeBlockBytes_mem_bounds (s f : Nat) :
    ∀ (bytes : List Nat) (p1 p2 : Int),
      ∀ x ∈ (decodeBlockBytes s f bytes p1 p2).1, -32768 ≤ x ∧ x ≤ 32766 := by
  intro bytes
  induction bytes with
  | nil => intro p1 p2 x hx; simp [decodeBlockBytes] at hx
  | cons b rest ih =>
    intro p1 p2 x hx
    simp only [decodeBlockBytes, List.mem_cons] at hx
    rcases hx with rfl | rfl | hx
    · exact stored_sample_bounds _ _ _ _ _
    · exact stored_sample_bounds _ _ _ _ _
    · exact ih _ _ x hx

lemma decodeBlocks_mem_bounds :
    ∀ (blocks : List (List Nat)) (p1 p2 : Int),
      ∀ x ∈ decodeBlocks blocks p1 p2, -32768 ≤ x ∧ x ≤ 32766 := by
  intro blocks
  induction blocks with
  | nil => intro p1 p2 x hx; simp [decodeBlocks] at hx
  | cons blk rest ih =>
    intro p1 p2 x hx
    simp only [decodeBlocks, List.mem_append] at hx
    rcases hx with hx | hx
    · exact decodeBlockBytes_mem_bounds _ _ _ _ _ x hx
    · exact ih _ _ x hx

/-- C7: every sample of the float output of `decodeBRR` lies in `[-1, 1]`, and the
float output is exactly the decoded int16 stream divided pointwise by
32768.0. -/
theorem claim_C7 (blocks : List (List Nat)) :
    (∀ q ∈ decodeBRRFloat blocks, -1 ≤ q ∧ q ≤ 1) ∧
      decodeBRRFloat blocks = (decodeBRRInt blocks).map fun s : Int => (s : ℚ) / 32768 := by
  refine ⟨?_, rfl⟩
  intro q hq
  have hq2 : q ∈ (decodeBRRInt blocks).map (fun s : Int => (s : ℚ) / 32768) := hq
  obtain ⟨s, hs, rfl⟩ := List.mem_map.mp hq2
  obtain ⟨h1, h2⟩ := decodeBlocks_mem_bounds blocks 0 0 s hs
  have hc1 : (-32768 : ℚ) ≤ (s : ℚ) := by exact_mod_cast h1
  have hc2 : (s : ℚ) ≤ 32766 := by exact_mod_cast h2
  constructor
  · rw [le_div_iff₀ (by norm_num : (0 : ℚ) < 32768)]
    linarith
  · rw [div_le_one (by norm_num : (0 : ℚ) < 32768)]
    linarith

theorem claim_C7_witness :
    ((0 : Int) : ℚ) / 32768 ∈ decodeBRRFloat [[0, 0, 0, 0, 0, 0, 0, 0, 0]] ∧
      (-1 ≤ ((0 : Int) : ℚ) / 32768 ∧ ((0 : Int) : ℚ) / 32768 ≤ 1) :=
  ⟨by with_unfolding_all decide,
    (claim_C7 [[0, 0, 0, 0, 0, 0, 0, 0, 0]]).1 _ (by with_unfolding_all decide)⟩

/-! ## Claim C10: decoding ignores the LOOP and END header bits -/

/-- Two blocks with the same shift/filter header bits (bits 7..2, equivalently
the same `header / 4`) and the same eight data bytes. -/
def SameAudio (b1 b2 : List Nat) : Prop :=
  b1.headD 0 / 4 = b2.headD 0 / 4 ∧ dataBytes b1 = dataBytes b2

lemma header_fields_of_div4 {h1 h2 : Nat} (h : h1 / 4 = h2 / 4) :
    (h1 >>> 4) &&& 0x0F = (h2 >>> 4) &&& 0x0F ∧
      (h1 >>> 2) &&& 0x03 = (h2 >>> 2) &&& 0x03 := by
  have e1 : ∀ n : Nat, n >>> 2 = n / 4 := fun n => by
    rw [Nat.shiftRight_eq_div_pow]
  have e2 : ∀ n : Nat, n >>> 4 = n / 4 / 4 := fun n => by
    rw [Nat.shiftRight_eq_div_pow, Nat.div_div_eq_div_mul]
  rw [e1, e1, e2, e2, h]
  exact ⟨rfl, rfl⟩

lemma decodeBlocks_congr_sameAudio :
    ∀ {b1 b2 : List (List Nat)}, List.Forall₂ SameAudio b1 b2 →
      ∀ p1 p2 : Int, decodeBlocks b1 p1 p2 = decodeBlocks b2 p1 p2 := by
  intro b1 b2 h
  induction h with
  | nil => intro p1 p2; rfl
  | cons hrel _ ih =>
    intro p1 p2
    obtain ⟨hhd, hdata⟩ := hrel
    obtain ⟨hs, hf⟩ := header_fields_of_div4 hhd
    simp only [decodeBlocks, hs, hf, hdata, ih]

/-- C10: the decoder depends only on bits 7..2 of each header (shift and
filter) and on the data bytes; flipping LOOP/END bits (bits 1..0) anywhere
leaves both the int16 and the float output unchanged — in particular the
decoder does not stop at, or otherwise react to, the END bit. -/
theorem claim_C10 {b1 b2 : List (List Nat)} (h : List.Forall₂ SameAudio b1 b2) :
    decodeBRRInt b1 = decodeBRRInt b2 ∧ decodeBRRFloat b1 = decodeBRRFloat b2 := by
  have hint : decodeBRRInt b1 = decodeBRRInt b2 :=
    decodeBlocks_congr_sameAudio h 0 0
  exact ⟨hint, by simp [decodeBRRFloat, hint]⟩

theorem claim_C10_witness :
    List.Forall₂ SameAudio
        [[0x35, 0x12, 0xEF, 0x80, 0x7F, 0x00, 0x55, 0xAA, 0x01]]
        [[0x37, 0x12, 0xEF, 0x80, 0x7F, 0x00, 0x55, 0xAA, 0x01]] ∧
      (decodeBRRInt [[0x35, 0x12, 0xEF, 0x80, 0x7F, 0x00, 0x55, 0xAA, 0x01]] =
          decodeBRRInt [[0x37, 0x12, 0xEF, 0x80, 0x7F, 0x00, 0x55, 0xAA, 0x01]] ∧
        decodeBRRFloat [[0x35, 0x12, 0xEF, 0x80, 0x7F, 0x00, 0x55, 0xAA, 0x01]] =
          decodeBRRFloat [[0x37, 0x12, 0xEF, 0x80, 0x7F, 0x00, 0x55, 0xAA, 0x01]]) :=
 by
  have hf : List.Forall₂ SameAudio
      [[0x35, 0x12, 0xEF, 0x80, 0x7F, 0x00, 0x55, 0xAA, 0x01]]
      [[0x37, 0x12, 0xEF, 0x80, 0x7F, 0x00, 0x55, 0xAA, 0x01]] := by
    refine List.Forall₂.cons ⟨?_, ?_⟩ List.Forall₂.nil
    · decide
    · decide
  exact ⟨hf, claim_C10 hf⟩

/-! ## Claim C5: block count and sizes -/

lemma processSamples_nibbles_length (sh f : Nat) :
    ∀ (pcm : List Int) (p1 p2 : Int),
      (processSamples sh f pcm p1 p2).1.length = pcm.length := by
  intro pcm
  induction pcm with
  | nil => intro p1 p2; rfl
  | cons a rest ih =>
    intro p1 p2
    simp only [processSamples, List.length_cons]
    rw [ih]

lemma packNibbles_length : ∀ l : List Nat, (packNibbles l).length = (l.length + 1) / 2
  | [] => rfl
  | [_] => by simp [packNibbles]
  | _ :: _ :: rest => by
    simp only [packNibbles, List.length_cons]
    rw [packNibbles_length rest]
    omega

lemma findAndEncodeBlock_length {pcm : List Int} (h : pcm.length = 16) (p1 p2 : Int) :
    (findAndEncodeBlock pcm p1 p2).1.length = 9 := by
  simp only [findAndEncodeBlock, processBlock, List.length_cons]
  rw [packNibbles_length, processSamples_nibbles_length, h]

lemma encodeChunks_count :
    ∀ (n : Nat) (pcm : List Int) (p1 p2 : Int), (encodeChunks n pcm p1 p2).1.length = n := by
  intro n
  induction n with
  | zero => intro pcm p1 p2; rfl
  | succ m ih =>
    intro pcm p1 p2
    simp only [encodeChunks, List.length_cons]
    rw [ih]

lemma encodeChunks_block_length :
    ∀ (n : Nat) (pcm : List Int) (p1 p2 : Int), 16 * n ≤ pcm.length →
      ∀ blk ∈ (encodeChunks n pcm p1 p2).1, blk.length = 9 := by
  intro n
  induction n with
  | zero => intro pcm p1 p2 _ blk hblk; simp [encodeChunks] at hblk
  | succ m ih =>
    intro pcm p1 p2 hlen blk hblk
    simp only [encodeChunks, List.mem_cons] at hblk
    rcases hblk with rfl | hblk
    · exact findAndEncodeBlock_length (by simp [List.length_take]; omega) _ _
    · exact ih (pcm.drop 16) _ _ (by simp [List.length_drop]; omega) blk hblk

lemma markEnd_length : ∀ blk : List Nat, (markEnd blk).length = blk.length
  | [] => rfl
  | _ :: _ => rfl

lemma setEndBit_length : ∀ bl : List (List Nat), (setEndBit bl).length = bl.length
  | [] => rfl
  | [blk] => by simp [setEndBit, markEnd_length]
  | _ :: b :: rest => by
    simp only [setEndBit, List.length_cons]
    rw [setEndBit_length (b :: rest)]
    simp

lemma setEndBit_block_length :
    ∀ bl : List (List Nat), (∀ b ∈ bl, b.length = 9) →
      ∀ b ∈ setEndBit bl, b.length = 9
  | [], _ => by simp [setEndBit]
  | [blk], h => by
    intro b hb
    simp only [setEndBit, List.mem_singleton] at hb
    subst hb
    rw [markEnd_length]
    exact h blk (by simp)
  | a :: c :: rest, h => by
    intro b hb
    simp only [setEndBit, List.mem_cons] at hb
    rcases hb with rfl | hb
    · exact h b (by simp)
    · exact setEndBit_block_length (c :: rest) (fun y hy => h y (by simp [List.mem_cons] at hy ⊢; tauto)) b hb

lemma padPcm_length (pcm : List Int) :
    (padPcm pcm).length = 16 * ((pcm.length + 15) / 16) := by
  simp only [padPcm, List.length_append, List.length_replicate]
  omega

/-- C5: encoding `N` float samples yields exactly `⌈N/16⌉` blocks (here
written `(N + 15) / 16`), each exactly 9 bytes, and decoding them yields
exactly `⌈N/16⌉ · 16` int16 samples. -/
theorem claim_C5 (x : List Rat) :
    (encodeBRR x).length = (x.length + 15) / 16 ∧
      (∀ blk ∈ encodeBRR x, blk.length = 9) ∧
      (decodeBRRInt (encodeBRR x)).length = 16 * ((x.length + 15) / 16) := by
  have hn : (padPcm (x.map floatToPcm)).length = 16 * ((x.length + 15) / 16) := by
    rw [padPcm_length, List.length_map]
  have hcount : (encodeBRR x).length = (x.length + 15) / 16 := by
    simp only [encodeBRR, encodeBRRFrom, encodeLoop, setEndBit_length, encodeChunks_count, hn]
    omega
  refine ⟨hcount, ?_, ?_⟩
  · intro blk hblk
    refine setEndBit_block_length _ ?_ blk hblk
    intro b hb
    refine encodeChunks_block_length _ _ _ _ ?_ b hb
    rw [hn]
    omega
  · simp only [decodeBRRInt]
    rw [decodeBlocks_length, hcount]

/-! ## Claim C2: the search picks the first minimal-MSE candidate -/

lemma foldl_searchStep_eq_selAux (pcm : List Int) (p1 p2 : Int) :
    ∀ (l : List (Nat × Nat)) (b : ℚ) (sel : Nat × Nat),
      l.foldl (searchStep pcm p1 p2) (some b, sel) =
        (some (selAux (fun sf => trialError pcm p1 p2 sf.1 sf.2) l b sel).1,
          (selAux (fun sf => trialError pcm p1 p2 sf.1 sf.2) l b sel).2) := by
  intro l
  induction l with
  | nil => intro b sel; rfl
  | cons x xs ih =>
    intro b sel
    by_cases h : trialError pcm p1 p2 x.1 x.2 < b
    · simp only [List.foldl_cons, searchStep, selAux, if_pos h, ih]
    · simp only [List.foldl_cons, searchStep, selAux, if_neg h, ih]

lemma selAux_min {α : Type} (err : α → ℚ) :
    ∀ (l : List α) (b : ℚ) (sel : α),
      (selAux err l b sel).1 ≤ b ∧ ∀ x ∈ l, (selAux err l b sel).1 ≤ err x := by
  intro l
  induction l with
  | nil => intro b sel; exact ⟨le_refl _, by simp⟩
  | cons x xs ih =>
    intro b sel
    by_cases h : err x < b
    · simp only [selAux, if_pos h]
      obtain ⟨h1, h2⟩ := ih (err x) x
      refine ⟨h1.trans h.le, ?_⟩
      intro z hz
      rcases List.mem_cons.mp hz with rfl | hz
      · exact h1
      · exact h2 z hz
    · simp only [selAux, if_neg h]
      obtain ⟨h1, h2⟩ := ih b sel
      refine ⟨h1, ?_⟩
      intro z hz
      rcases List.mem_cons.mp hz with rfl | hz
      · exact h1.trans (not_lt.mp h)
      · exact h2 z hz

lemma selAux_cases {α : Type} (err : α → ℚ) :
    ∀ (l : List α) (b : ℚ) (sel : α),
      (selAux err l b sel = (b, sel) ∧ ∀ x ∈ l, ¬ err x < b) ∨
        ∃ l1 y l2, l = l1 ++ y :: l2 ∧ (selAux err l b sel).2 = y ∧
          (selAux err l b sel).1 = err y ∧ err y < b ∧ ∀ z ∈ l1, err y < err z := by
  intro l
  induction l with
  | nil => intro b sel; exact Or.inl ⟨rfl, by simp⟩
  | cons x xs ih =>
    intro b sel
    by_cases h : err x < b
    · right
      simp only [selAux, if_pos h]
      rcases ih (err x) x with ⟨heq, _⟩ | ⟨l1, y, l2, hsplit, hsel, hval, hlt, hbefore⟩
      · exact ⟨[], x, xs, by simp, by rw [heq], by rw [heq], h, by simp⟩
      · refine ⟨x :: l1, y, l2, by simp [hsplit], hsel, hval, hlt.trans h, ?_⟩
        intro z hz
        rcases List.mem_cons.mp hz with rfl | hz
        · exact hlt
        · exact hbefore z hz
    · simp only [selAux, if_neg h]
      rcases ih b sel with ⟨heq, hall⟩ | ⟨l1, y, l2, hsplit, hsel, hval, hlt, hbefore⟩
      · left
        refine ⟨heq, ?_⟩
        intro z hz
        rcases List.mem_cons.mp hz with rfl | hz
        · exact h
        · exact hall z hz
      · right
        refine ⟨x :: l1, y, l2, by simp [hsplit], hsel, hval, hlt, ?_⟩
        intro z hz
        rcases List.mem_cons.mp hz with rfl | hz
        · exact hlt.trans_le (not_lt.mp h)
        · exact hbefore z hz

lemma candidates_head : candidates = (0, 0) :: candidates.tail := by decide

lemma candidates_bounds : ∀ sf ∈ candidates, sf.1 < 13 ∧ sf.2 < 4 := by decide

lemma candidates_sorted : List.Pairwise lexlt candidates := by decide

lemma findParams_spec (pcm : List Int) (p1 p2 : Int) :
    findParams pcm p1 p2 ∈ candidates ∧
      (∀ sf ∈ candidates,
        trialError pcm p1 p2 (findParams pcm p1 p2).1 (findParams pcm p1 p2).2 ≤
          trialError pcm p1 p2 sf.1 sf.2) ∧
      ∀ sf ∈ candidates, lexlt sf (findParams pcm p1 p2) →
        trialError pcm p1 p2 (findParams pcm p1 p2).1 (findParams pcm p1 p2).2 <
          trialError pcm p1 p2 sf.1 sf.2 := by
  set err := fun sf : Nat × Nat => trialError pcm p1 p2 sf.1 sf.2 with herr
  have hfold : findParams pcm p1 p2 = (selAux err candidates.tail (err (0, 0)) (0, 0)).2 := by
    rw [findParams, candidates_head]
    simp only [List.foldl_cons, searchStep]
    rw [foldl_searchStep_eq_selAux]
    simp [herr]
  have hval : err (findParams pcm p1 p2) =
      (selAux err candidates.tail (err (0, 0)) (0, 0)).1 := by
    rcases selAux_cases err candidates.tail (err (0, 0)) (0, 0) with
      ⟨heq, _⟩ | ⟨l1, y, l2, _, hsel, hv, _, _⟩
    · rw [hfold, heq]
    · rw [hfold, hsel, hv]
  have hmin := selAux_min err candidates.tail (err (0, 0)) (0, 0)
  refine ⟨?_, ?_, ?_⟩
  · rcases selAux_cases err candidates.tail (err (0, 0)) (0, 0) with
      ⟨heq, _⟩ | ⟨l1, y, l2, hsplit, hsel, _, _, _⟩
    · rw [hfold, heq]
      rw [candidates_head]
      simp
    · rw [hfold, hsel]
      rw [candidates_head, hsplit]
      simp
  · intro sf hsf
    have : err (findParams pcm p1 p2) ≤ err sf := by
      rw [hval]
      rw [candidates_head] at hsf
      rcases List.mem_cons.mp hsf with rfl | hsf
      · exact hmin.1
      · exact hmin.2 sf hsf
    exact this
  · intro sf hsf hlex
    suffices hgoal : err (findParams pcm p1 p2) < err sf by exact hgoal
    rw [hval]
    rcases selAux_cases err candidates.tail (err (0, 0)) (0, 0) with
      ⟨heq, _⟩ | ⟨l1, y, l2, hsplit, hsel, hv, hlt, hbefore⟩
    · exfalso
      rw [hfold, heq] at hlex
      rcases hlex with hbad | ⟨_, hbad⟩ <;> simp at hbad
    · rw [hv]
      rw [hfold, hsel] at hlex
      rw [candidates_head, hsplit] at hsf
      have hsorted : List.Pairwise lexlt ((0, 0) :: (l1 ++ y :: l2)) := by
        have hcs := candidates_sorted
        rw [candidates_head, hsplit] at hcs
        exact hcs
      rcases List.mem_cons.mp hsf with rfl | hsf2
      · exact hlt
      · rcases List.mem_append.mp hsf2 with hmem | hmem
        · exact hbefore sf hmem
        · rcases List.mem_cons.mp hmem with rfl | hmem
          · exfalso
            rcases hlex with hbad | ⟨_, hbad⟩ <;> omega
          · exfalso
            have hys : lexlt y sf := by
              have hp := (List.pairwise_cons.mp hsorted).2
              have hp2 := (List.pairwise_append.mp hp).2.1
              exact (List.pairwise_cons.mp hp2).1 sf hmem
            rcases hlex with hbad | ⟨heq2, hbad⟩ <;>
              rcases hys with hbad2 | ⟨heq3, hbad2⟩ <;> omega

/-- C2: the `(shift, filter)` pair selected by `findAndEncodeBlock` is in
`{0..12} × {0..3}`; no candidate in that grid has strictly lower trial MSE
under `processBlock`; among candidates attaining the minimum the selected
pair is the first in shift-outer, filter-inner order; and the emitted block
is the write-mode re-encoding under the selected pair. -/
theorem claim_C2 (pcmBlock : List Int) (p1 p2 : Int) :
    ((findParams pcmBlock p1 p2).1 < 13 ∧ (findParams pcmBlock p1 p2).2 < 4) ∧
      (∀ s f, s < 13 → f < 4 →
        ¬ trialError pcmBlock p1 p2 s f <
            trialError pcmBlock p1 p2 (findParams pcmBlock p1 p2).1 (findParams pcmBlock p1 p2).2) ∧
      (∀ s f, s < 13 → f < 4 →
        (s < (findParams pcmBlock p1 p2).1 ∨
          (s = (findParams pcmBlock p1 p2).1 ∧ f < (findParams pcmBlock p1 p2).2)) →
        trialError pcmBlock p1 p2 (findParams pcmBlock p1 p2).1 (findParams pcmBlock p1 p2).2 <
          trialError pcmBlock p1 p2 s f) ∧
      findAndEncodeBlock pcmBlock p1 p2 =
        ((((findParams pcmBlock p1 p2).1 <<< 4) ||| ((findParams pcmBlock p1 p2).2 <<< 2)) ::
            (processBlock pcmBlock (findParams pcmBlock p1 p2).1 (findParams pcmBlock p1 p2).2 p1 p2).1,
          (processBlock pcmBlock (findParams pcmBlock p1 p2).1 (findParams pcmBlock p1 p2).2 p1 p2).2.2) := by
  obtain ⟨hmem, hmin, hfirst⟩ := findParams_spec pcmBlock p1 p2
  have hmemc : ∀ s f : Nat, s < 13 → f < 4 → (s, f) ∈ candidates := by
    intro s f hs hf
    simp only [candidates, List.mem_flatMap, List.mem_map, List.mem_range]
    exact ⟨s, hs, f, hf, rfl⟩
  refine ⟨candidates_bounds _ hmem, ?_, ?_, rfl⟩
  · intro s f hs hf
    exact not_lt.mpr (hmin (s, f) (hmemc s f hs hf))
  · intro s f hs hf hlex
    exact hfirst (s, f) (hmemc s f hs hf) hlex

/-! ## Claim C4: END/LOOP header-bit law -/

lemma getD_mem_of_lt {α : Type} :
    ∀ (l : List α) (d : α) (i : Nat), i < l.length → l.getD i d ∈ l
  | [], _, i, h => by simp at h
  | a :: t, d, 0, _ => by simp
  | a :: t, d, i + 1, h => by
    rw [List.getD_cons_succ]
    exact List.mem_cons_of_mem _ (getD_mem_of_lt t d i (by simpa using h))

lemma header_bits {s f : Nat} (hs : s < 13) (hf : f < 4) :
    ((s <<< 4) ||| (f <<< 2)) % 2 = 0 ∧ ((s <<< 4) ||| (f <<< 2)) / 2 % 2 = 0 ∧
      (((s <<< 4) ||| (f <<< 2)) ||| 1) % 2 = 1 ∧
      (((s <<< 4) ||| (f <<< 2)) ||| 1) / 2 % 2 = 0 := by
  interval_cases s <;> interval_cases f <;> decide

lemma encodeChunks_header :
    ∀ (n : Nat) (pcm : List Int) (p1 p2 : Int), ∀ blk ∈ (encodeChunks n pcm p1 p2).1,
      ∃ s f data, s < 13 ∧ f < 4 ∧ blk = ((s <<< 4) ||| (f <<< 2)) :: data := by
  intro n
  induction n with
  | zero => intro pcm p1 p2 blk h; simp [encodeChunks] at h
  | succ m ih =>
    intro pcm p1 p2 blk hblk
    simp only [encodeChunks, List.mem_cons] at hblk
    rcases hblk with rfl | hblk
    · obtain ⟨hmem, _, _⟩ := findParams_spec (pcm.take 16) p1 p2
      obtain ⟨hs, hf⟩ := candidates_bounds _ hmem
      exact ⟨_, _, _, hs, hf, rfl⟩
    · exact ih _ _ _ blk hblk

lemma setEndBit_getD :
    ∀ (bl : List (List Nat)) (i : Nat),
      (setEndBit bl).getD i [] =
        if i + 1 = bl.length then markEnd (bl.getD i []) else bl.getD i []
  | [], i => by simp [setEndBit]
  | [b], i => by
    cases i with
    | zero => simp [setEndBit]
    | succ j => simp [setEndBit]
  | a :: b :: rest, i => by
    cases i with
    | zero =>
      have : ¬ (0 + 1 = (a :: b :: rest).length) := by simp
      simp only [setEndBit, List.getD_cons_zero, if_neg this]
    | succ j =>
      have hiff : (j + 1 = (b :: rest).length) ↔ (j + 1 + 1 = (a :: b :: rest).length) := by
        simp [List.length_cons]
      simp only [setEndBit, List.getD_cons_succ]
      rw [setEndBit_getD (b :: rest) j, if_congr hiff rfl rfl]

/-- C4: for nonempty input the encoded stream has the END bit (0x01) set in
the header of exactly one block — the final one — and the LOOP bit (0x02)
clear in every header; empty input yields the empty stream. -/
theorem claim_C4 (x : List Rat) :
    (x = [] → encodeBRR x = []) ∧
      (x ≠ [] →
        encodeBRR x ≠ [] ∧
        ∀ i, i < (encodeBRR x).length →
          (((encodeBRR x).getD i []).headD 0 % 2 =
              if i = (encodeBRR x).length - 1 then 1 else 0) ∧
            ((encodeBRR x).getD i []).headD 0 / 2 % 2 = 0) := by
  constructor
  · intro h
    subst h
    rfl
  · intro hne
    have hxlen : 0 < x.length := List.length_pos.mpr hne
    have hn : (padPcm (x.map floatToPcm)).length = 16 * ((x.length + 15) / 16) := by
      rw [padPcm_length, List.length_map]
    have hBL : (encodeLoop (padPcm (x.map floatToPcm)) 0 0).1.length = (x.length + 15) / 16 := by
      simp only [encodeLoop, encodeChunks_count, hn]
      omega
    have hBLpos : 0 < (encodeLoop (padPcm (x.map floatToPcm)) 0 0).1.length := by
      rw [hBL]
      omega
    have hLlen : (encodeBRR x).length = (encodeLoop (padPcm (x.map floatToPcm)) 0 0).1.length := by
      simp only [encodeBRR, encodeBRRFrom, setEndBit_length]
    constructor
    · intro hcon
      rw [hcon] at hLlen
      simp at hLlen
      omega
    · intro i hi
      rw [hLlen] at hi
      have hgetD : (encodeBRR x).getD i [] =
          if i + 1 = (encodeLoop (padPcm (x.map floatToPcm)) 0 0).1.length then
            markEnd ((encodeLoop (padPcm (x.map floatToPcm)) 0 0).1.getD i [])
          else (encodeLoop (padPcm (x.map floatToPcm)) 0 0).1.getD i [] :=
        setEndBit_getD _ i
      obtain ⟨sh, f, data, hs, hf, hblk⟩ :=
        encodeChunks_header _ _ _ _ _ (getD_mem_of_lt _ [] i hi)
      have hblk2 : (encodeLoop (padPcm (x.map floatToPcm)) 0 0).1.getD i [] =
          ((sh <<< 4) ||| (f <<< 2)) :: data := hblk
      obtain ⟨hb1, hb2, hb3, hb4⟩ := header_bits hs hf
      by_cases hlast : i + 1 = (encodeLoop (padPcm (x.map floatToPcm)) 0 0).1.length
      · have hif : i = (encodeBRR x).length - 1 := by omega
        rw [hgetD, if_pos hlast, hblk2]
        simp only [markEnd, List.headD_cons, if_pos hif]
        exact ⟨hb3, hb4⟩
      · have hif : ¬ i = (encodeBRR x).length - 1 := by omega
        rw [hgetD, if_neg hlast, hblk2]
        simp only [List.headD_cons, if_neg hif]
        exact ⟨hb1, hb2⟩

set_option maxRecDepth 40000 in
theorem claim_C4_witness :
    (([(0 : Rat)] : List Rat) ≠ []) ∧ 0 < (encodeBRR [(0 : Rat)]).length ∧
      ((((encodeBRR [(0 : Rat)]).getD 0 []).headD 0 % 2 =
          if 0 = (encodeBRR [(0 : Rat)]).length - 1 then 1 else 0) ∧
        ((encodeBRR [(0 : Rat)]).getD 0 []).headD 0 / 2 % 2 = 0) :=
  ⟨by decide, by with_unfolding_all decide,
    ((claim_C4 [0]).2 (by decide)).2 0 (by with_unfolding_all decide)⟩

/-! ## Claim C3: streaming state continuity

In the source, `encodeBRR` always sets the END bit on the last block of the
stream it emits, so encoding in two calls also marks the final block of the
first segment: the two-call stream equals the single-call stream with the
END bit additionally set on block `k - 1`.  With that one header bit
accounted for, the split law holds exactly, predictor state carried. -/

lemma encodeChunks_append :
    ∀ (m : Nat), ∀ (n : Nat) (a b : List Int) (p1 p2 : Int), a.length = 16 * m →
      encodeChunks (m + n) (a ++ b) p1 p2 =
        ((encodeChunks m a p1 p2).1 ++
            (encodeChunks n b (encodeChunks m a p1 p2).2.1 (encodeChunks m a p1 p2).2.2).1,
          (encodeChunks n b (encodeChunks m a p1 p2).2.1 (encodeChunks m a p1 p2).2.2).2) := by
  intro m
  induction m with
  | zero =>
    intro n a b p1 p2 ha
    have hnil : a = [] := List.eq_nil_of_length_eq_zero (by omega)
    subst hnil
    simp [encodeChunks]
  | succ k ih =>
    intro n a b p1 p2 ha
    have h16 : 16 ≤ a.length := by omega
    have hadd : k + 1 + n = (k + n) + 1 := by omega
    rw [hadd]
    simp only [encodeChunks]
    rw [List.take_append_of_le_length h16, List.drop_append_of_le_length h16]
    rw [ih n (a.drop 16) b _ _ (by simp [List.length_drop]; omega)]
    simp

lemma padPcm_eq_self {pcm : List Int} (h : pcm.length % 16 = 0) : padPcm pcm = pcm := by
  have hz : (16 - pcm.length % 16) % 16 = 0 := by omega
  simp [padPcm, hz]

lemma padPcm_append {a b : List Int} (h : a.length % 16 = 0) :
    padPcm (a ++ b) = a ++ padPcm b := by
  simp only [padPcm, List.length_append, List.append_assoc]
  congr 3
  omega

lemma setEndBit_append :
    ∀ (a b : List (List Nat)), b ≠ [] → setEndBit (a ++ b) = a ++ setEndBit b
  | [], b, hb => by simp
  | [x], b, hb => by
    cases b with
    | nil => exact absurd rfl hb
    | cons y t => simp [setEndBit]
  | x :: x2 :: rest, b, hb => by
    have ih := setEndBit_append (x2 :: rest) b hb
    simp only [List.cons_append, List.append_eq, setEndBit] at ih ⊢
    rw [ih]

lemma orEndAt_append :
    ∀ (a rest : List (List Nat)), a ≠ [] →
      orEndAt (a.length - 1) (a ++ rest) = setEndBit a ++ rest
  | [], _, h => absurd rfl h
  | [x], rest, _ => by simp [orEndAt, setEndBit]
  | x :: y :: t, rest, _ => by
    have ih := orEndAt_append (y :: t) rest (by simp)
    simp only [List.length_cons] at ih ⊢
    simp only [Nat.add_sub_cancel] at ih ⊢
    simp only [List.cons_append, List.append_eq, orEndAt, setEndBit] at ih ⊢
    rw [ih]

/-- C3 (amended): for a block-aligned split `16k` strictly inside `x`,
encoding `x[0..16k]` with `encodeBRR` and then `x[16k..]` with the predictor
state carried over yields the single-call stream `encodeBRR x` with the END
bit (0x01) additionally set on block `k - 1` (the first call marks its own
final block); the data bytes and all other headers coincide, and with that
one bit ignored the streams are equal. -/
theorem claim_C3 (x : List Rat) (k : Nat) (hk : 0 < k) (hlen : 16 * k < x.length) :
    encodeBRR (x.take (16 * k)) ++
        encodeBRRFrom (encodeStateAfter (x.take (16 * k))).1
          (encodeStateAfter (x.take (16 * k))).2 (x.drop (16 * k)) =
      orEndAt (k - 1) (encodeBRR x) := by
  set a := (x.map floatToPcm).take (16 * k) with hadef
  set bb := (x.map floatToPcm).drop (16 * k) with hbdef
  have hmapt : (x.take (16 * k)).map floatToPcm = a := by
    rw [hadef, List.map_take]
  have hmapd : (x.drop (16 * k)).map floatToPcm = bb := by
    rw [hbdef, List.map_drop]
  have hsplit : x.map floatToPcm = a ++ bb := (List.take_append_drop _ _).symm
  have halen : a.length = 16 * k := by
    rw [hadef]
    simp only [List.length_take, List.length_map]
    omega
  have hbblen : 0 < bb.length := by
    rw [hbdef]
    simp only [List.length_drop, List.length_map]
    omega
  have hamod : a.length % 16 = 0 := by omega
  have hpada : padPcm a = a := padPcm_eq_self hamod
  set nb := ((padPcm bb).length) / 16 with hnbdef
  have hpadbb : (padPcm bb).length = 16 * ((bb.length + 15) / 16) := padPcm_length bb
  have hnb : nb = (bb.length + 15) / 16 := by rw [hnbdef, hpadbb]; omega
  have hnbpos : 0 < nb := by rw [hnb]; omega
  -- decompose the single-call chunk list
  have hfullpad : padPcm (x.map floatToPcm) = a ++ padPcm bb := by
    rw [hsplit, padPcm_append hamod]
  have hfulllen : (a ++ padPcm bb).length / 16 = k + nb := by
    simp only [List.length_append, halen, hpadbb]
    rw [hnb]
    omega
  have hchunks := encodeChunks_append k nb a (padPcm bb) 0 0 halen
  -- the three streams
  have hfirst : encodeBRR (x.take (16 * k)) = setEndBit (encodeChunks k a 0 0).1 := by
    simp only [encodeBRR, encodeBRRFrom, encodeLoop, hmapt, hpada, halen]
    have : 16 * k / 16 = k := by omega
    rw [this]
  have hstate : encodeStateAfter (x.take (16 * k)) = (encodeChunks k a 0 0).2 := by
    simp only [encodeStateAfter, encodeLoop, hmapt, hpada, halen]
    have : 16 * k / 16 = k := by omega
    rw [this]
  have hsecond : encodeBRRFrom (encodeStateAfter (x.take (16 * k))).1
      (encodeStateAfter (x.take (16 * k))).2 (x.drop (16 * k)) =
      setEndBit (encodeChunks nb (padPcm bb) (encodeChunks k a 0 0).2.1
        (encodeChunks k a 0 0).2.2).1 := by
    rw [hstate]
    simp only [encodeBRRFrom, encodeLoop, hmapd, hnbdef]
  have hsingle : encodeBRR x =
      setEndBit ((encodeChunks k a 0 0).1 ++
        (encodeChunks nb (padPcm bb) (encodeChunks k a 0 0).2.1
          (encodeChunks k a 0 0).2.2).1) := by
    simp only [encodeBRR, encodeBRRFrom, encodeLoop]
    rw [hfullpad, hfulllen, hchunks]
  -- sizes
  have hBL1len : (encodeChunks k a 0 0).1.length = k := encodeChunks_count k a 0 0
  have hBL1ne : (encodeChunks k a 0 0).1 ≠ [] := by
    intro hcon
    rw [hcon] at hBL1len
    simp at hBL1len
    omega
  have hBL2len : (encodeChunks nb (padPcm bb) (encodeChunks k a 0 0).2.1
      (encodeChunks k a 0 0).2.2).1.length = nb := encodeChunks_count _ _ _ _
  have hBL2ne : (encodeChunks nb (padPcm bb) (encodeChunks k a 0 0).2.1
      (encodeChunks k a 0 0).2.2).1 ≠ [] := by
    intro hcon
    rw [hcon] at hBL2len
    simp at hBL2len
    omega
  have hsetne : setEndBit (encodeChunks nb (padPcm bb) (encodeChunks k a 0 0).2.1
      (encodeChunks k a 0 0).2.2).1 ≠ [] := by
    intro hcon
    have := setEndBit_length (encodeChunks nb (padPcm bb) (encodeChunks k a 0 0).2.1
      (encodeChunks k a 0 0).2.2).1
    rw [hcon] at this
    simp at this
    omega
  rw [hfirst, hsecond, hsingle]
  rw [setEndBit_append _ _ hBL2ne]
  have hk1 : k - 1 = (encodeChunks k a 0 0).1.length - 1 := by omega
  rw [hk1, orEndAt_append _ _ hBL1ne]

theorem claim_C3_witness :
    0 < 1 ∧ 16 * 1 < (List.replicate 32 (0 : Rat)).length ∧
      (encodeBRR ((List.replicate 32 (0 : Rat)).take (16 * 1)) ++
          encodeBRRFrom (encodeStateAfter ((List.replicate 32 (0 : Rat)).take (16 * 1))).1
            (encodeStateAfter ((List.replicate 32 (0 : Rat)).take (16 * 1))).2
            ((List.replicate 32 (0 : Rat)).drop (16 * 1)) =
        orEndAt (1 - 1) (encodeBRR (List.replicate 32 (0 : Rat)))) :=
  ⟨by decide, by decide, claim_C3 (List.replicate 32 0) 1 (by decide) (by decide)⟩

set_option maxRecDepth 200000 in
/-- C3 counterexample: the claim as stated is false — for 17 zero samples
split at `k = 1`, the two-call byte stream (predictor state carried) differs
from the single-call stream, because the first call sets the END bit on its
own final block (block 0), which the single-call stream leaves clear. -/
theorem claim_C3_counterexample :
    encodeBRR ((List.replicate 17 (0 : Rat)).take 16) ++
        encodeBRRFrom (encodeStateAfter ((List.replicate 17 (0 : Rat)).take 16)).1
          (encodeStateAfter ((List.replicate 17 (0 : Rat)).take 16)).2
          ((List.replicate 17 (0 : Rat)).drop 16) ≠
      encodeBRR (List.replicate 17 (0 : Rat)) := by
  with_unfolding_all decide

theorem claim_C2_witness :
    ((1 : Nat) < 13 ∧ (2 : Nat) < 4) ∧
      ¬ trialError (List.replicate 16 0) 0 0 1 2 <
          trialError (List.replicate 16 0) 0 0
            (findParams (List.replicate 16 0) 0 0).1 (findParams (List.replicate 16 0) 0 0).2 :=
  ⟨⟨by decide, by decide⟩,
    (claim_C2 (List.replicate 16 0) 0 0).2.1 1 2 (by decide) (by decide)⟩

/-! ## Claim C6: coupled normalization -/

lemma peakFold_cons (v : Rat) (t : List Rat) (acc : Rat) :
    peakFold (v :: t) acc = peakFold t (if |v| > acc then |v| else acc) := rfl

lemma peak_step_eq_max (a v : Rat) : (if |v| > a then |v| else a) = max a |v| := by
  rcases le_or_lt |v| a with h | h
  · rw [if_neg (not_lt.mpr h), max_eq_left h]
  · rw [if_pos h, max_eq_right h.le]

lemma peakFold_eq_max_fold :
    ∀ (sig : List Rat) (acc : Rat),
      peakFold sig acc = sig.foldl (fun a v => max a |v|) acc := by
  intro sig
  induction sig with
  | nil => intro acc; rfl
  | cons v t ih =>
    intro acc
    rw [peakFold_cons, peak_step_eq_max, List.foldl_cons, ih]

lemma peakFold_ge :
    ∀ (sig : List Rat) (acc : Rat),
      acc ≤ peakFold sig acc ∧ ∀ v ∈ sig, |v| ≤ peakFold sig acc := by
  intro sig
  induction sig with
  | nil => intro acc; exact ⟨le_refl _, by simp⟩
  | cons v t ih =>
    intro acc
    rw [peakFold_cons]
    obtain ⟨h1, h2⟩ := ih (if |v| > acc then |v| else acc)
    constructor
    · refine le_trans ?_ h1
      split_ifs with h
      · exact h.le
      · exact le_refl _
    · intro z hz
      rcases List.mem_cons.mp hz with rfl | hz
      · refine le_trans ?_ h1
        split_ifs with h
        · exact le_refl _
        · exact not_lt.mp h
      · exact h2 z hz

lemma peakFold_le {c : Rat} :
    ∀ (sig : List Rat) (acc : Rat), acc ≤ c → (∀ v ∈ sig, |v| ≤ c) →
      peakFold sig acc ≤ c := by
  intro sig
  induction sig with
  | nil => intro acc hacc _; exact hacc
  | cons v t ih =>
    intro acc hacc hall
    rw [peakFold_cons]
    refine ih _ ?_ fun z hz => hall z (by simp [hz])
    split_ifs with h
    · exact hall v (by simp)
    · exact hacc

/-- C6: `normalizeCoupled` computes the overall peak
`max(max|M[i]|, max|S[i]|)`; when it exceeds 0.95 both signals are scaled
pointwise by the same multiplier `k = 0.95 / peak` with `k ≤ 1` and the new
overall peak at most 0.95 (exactly, in the real-arithmetic model of the
float computation); otherwise both signals are returned unchanged. -/
theorem claim_C6 (m sd : List Rat) :
    overallPeak m sd = (m ++ sd).foldl (fun a v => max a |v|) 0 ∧
      (overallPeak m sd > 0.95 →
        normalizeCoupled m sd =
            (m.map fun v => v * (0.95 / overallPeak m sd),
              sd.map fun v => v * (0.95 / overallPeak m sd)) ∧
          0.95 / overallPeak m sd ≤ 1 ∧
          overallPeak (normalizeCoupled m sd).1 (normalizeCoupled m sd).2 ≤ 0.95) ∧
      (¬ overallPeak m sd > 0.95 → normalizeCoupled m sd = (m, sd)) := by
  have hpeak0 : (0 : Rat) ≤ overallPeak m sd := by
    have h1 := (peakFold_ge m 0).1
    have h2 := (peakFold_ge sd (peakFold m 0)).1
    exact le_trans h1 h2
  have hmem : ∀ v, (v ∈ m ∨ v ∈ sd) → |v| ≤ overallPeak m sd := by
    intro v hv
    rcases hv with hv | hv
    · exact le_trans ((peakFold_ge m 0).2 v hv) (peakFold_ge sd (peakFold m 0)).1
    · exact (peakFold_ge sd (peakFold m 0)).2 v hv
  refine ⟨?_, ?_, ?_⟩
  · rw [List.foldl_append]
    rw [overallPeak, peakFold_eq_max_fold, peakFold_eq_max_fold]
  · intro hgt
    have hpos : (0 : Rat) < overallPeak m sd := lt_trans (by norm_num) hgt
    have hne : overallPeak m sd ≠ 0 := ne_of_gt hpos
    have hk : (0 : Rat) < 0.95 / overallPeak m sd := by positivity
    have heq : normalizeCoupled m sd =
        (m.map fun v => v * (0.95 / overallPeak m sd),
          sd.map fun v => v * (0.95 / overallPeak m sd)) := by
      rw [normalizeCoupled, if_pos hgt]
    refine ⟨heq, ?_, ?_⟩
    · rw [div_le_one hpos]
      exact hgt.le
    · rw [heq]
      have hbound : ∀ (sig : List Rat), (∀ v ∈ sig, |v| ≤ overallPeak m sd) →
          ∀ w ∈ sig.map fun v => v * (0.95 / overallPeak m sd), |w| ≤ 0.95 := by
        intro sig hsig w hw
        obtain ⟨v, hv, rfl⟩ := List.mem_map.mp hw
        rw [abs_mul, abs_of_pos hk]
        calc |v| * (0.95 / overallPeak m sd)
            ≤ overallPeak m sd * (0.95 / overallPeak m sd) :=
              mul_le_mul_of_nonneg_right (hsig v hv) hk.le
          _ = 0.95 := mul_div_cancel₀ _ hne
      have hm := hbound m fun v hv => hmem v (Or.inl hv)
      have hsd := hbound sd fun v hv => hmem v (Or.inr hv)
      refine peakFold_le _ _ (peakFold_le _ _ (by norm_num) hm) hsd
  · intro hle
    rw [normalizeCoupled, if_neg hle]

theorem claim_C6_witness :
    overallPeak [1] [] > 0.95 ∧
      (normalizeCoupled [1] [] =
          (([1] : List Rat).map fun v => v * (0.95 / overallPeak [1] []),
            ([] : List Rat).map fun v => v * (0.95 / overallPeak [1] [])) ∧
        0.95 / overallPeak [1] [] ≤ 1 ∧
        overallPeak (normalizeCoupled [1] []).1 (normalizeCoupled [1] []).2 ≤ 0.95) :=
  ⟨by with_unfolding_all decide, (claim_C6 [1] []).2.1 (by with_unfolding_all decide)⟩

/-! ## Claim C8: Gauss filter formula -/

lemma gaussMain_length :
    ∀ (l : List Rat) (pm1 p0 : Rat), (gaussMain pm1 p0 l).length = l.length + 1 := by
  intro l
  induction l with
  | nil => intro pm1 p0; rfl
  | cons p1 rest ih =>
    intro pm1 p0
    simp only [gaussMain, List.length_cons]
    rw [ih]

lemma gaussMain_getD :
    ∀ (l : List Rat) (pm1 p0 : Rat),
      (∀ i, i < l.length →
        (gaussMain pm1 p0 l).getD i 0 =
          gaussC0 * (pm1 :: p0 :: l).getD i 0 + gaussC1 * (pm1 :: p0 :: l).getD (i + 1) 0 +
            gaussC0 * (pm1 :: p0 :: l).getD (i + 2) 0) ∧
      (gaussMain pm1 p0 l).getD l.length 0 =
        gaussC0 * (pm1 :: p0 :: l).getD l.length 0 +
          (gaussC1 + gaussC0) * (pm1 :: p0 :: l).getD (l.length + 1) 0 := by
  intro l
  induction l with
  | nil =>
    intro pm1 p0
    refine ⟨fun i hi => absurd hi (by simp), ?_⟩
    simp [gaussMain]
  | cons p1 rest ih =>
    intro pm1 p0
    obtain ⟨ih1, ih2⟩ := ih p0 p1
    constructor
    · intro i hi
      cases i with
      | zero => simp [gaussMain]
      | succ j =>
        have hj : j < rest.length := by simpa using hi
        simp only [gaussMain, List.getD_cons_succ]
        exact ih1 j hj
    · simp only [List.length_cons, gaussMain, List.getD_cons_succ]
      exact ih2

/-- C8: for inputs of length ≥ 2, `applyGaussFilter` preserves length and
computes `y[0] = (c1 + c0)·x[0] + c0·x[1]`, the interior three-tap formula
`y[i] = c0·x[i-1] + c1·x[i] + c0·x[i+1]`, and
`y[N-1] = c0·x[N-2] + (c1 + c0)·x[N-1]`, with `c0 = 372/2048`,
`c1 = 1304/2048`; inputs of length < 2 come back unchanged. -/
theorem claim_C8 (x : List Rat) :
    (x.length < 2 → applyGaussFilter x = x) ∧
      (2 ≤ x.length →
        (applyGaussFilter x).length = x.length ∧
          (applyGaussFilter x).getD 0 0 =
            (gaussC1 + gaussC0) * x.getD 0 0 + gaussC0 * x.getD 1 0 ∧
          (∀ i, 0 < i → i < x.length - 1 →
            (applyGaussFilter x).getD i 0 =
              gaussC0 * x.getD (i - 1) 0 + gaussC1 * x.getD i 0 +
                gaussC0 * x.getD (i + 1) 0) ∧
          (applyGaussFilter x).getD (x.length - 1) 0 =
            gaussC0 * x.getD (x.length - 2) 0 +
              (gaussC1 + gaussC0) * x.getD (x.length - 1) 0) := by
  match x with
  | [] => exact ⟨fun _ => rfl, fun h => absurd h (by simp)⟩
  | [a] => exact ⟨fun _ => rfl, fun h => absurd h (by simp)⟩
  | a :: b :: rest =>
    refine ⟨fun h => absurd h (by simp), fun _ => ?_⟩
    obtain ⟨hint, hlast⟩ := gaussMain_getD rest a b
    refine ⟨?_, ?_, ?_, ?_⟩
    · simp only [applyGaussFilter, List.length_cons]
      rw [gaussMain_length]
    · rfl
    · intro i hi0 hilen
      obtain ⟨j, rfl⟩ : ∃ j, i = j + 1 := ⟨i - 1, by omega⟩
      have hj : j < rest.length := by
        simp only [List.length_cons] at hilen
        omega
      simp only [applyGaussFilter, List.getD_cons_succ, Nat.add_sub_cancel]
      exact hint j hj
    · have hlen : (a :: b :: rest).length - 1 = rest.length + 1 := by simp
      have hlen2 : (a :: b :: rest).length - 2 = rest.length := by simp
      rw [hlen, hlen2]
      simp only [applyGaussFilter, List.getD_cons_succ]
      exact hlast

theorem claim_C8_witness :
    2 ≤ ([1, 2, 3] : List Rat).length ∧
      ((applyGaussFilter [1, 2, 3]).length = ([1, 2, 3] : List Rat).length ∧
        (applyGaussFilter [1, 2, 3]).getD 0 0 =
          (gaussC1 + gaussC0) * ([1, 2, 3] : List Rat).getD 0 0 +
            gaussC0 * ([1, 2, 3] : List Rat).getD 1 0 ∧
        (∀ i, 0 < i → i < ([1, 2, 3] : List Rat).length - 1 →
          (applyGaussFilter [1, 2, 3]).getD i 0 =
            gaussC0 * ([1, 2, 3] : List Rat).getD (i - 1) 0 +
              gaussC1 * ([1, 2, 3] : List Rat).getD i 0 +
              gaussC0 * ([1, 2, 3] : List Rat).getD (i + 1) 0) ∧
        (applyGaussFilter [1, 2, 3]).getD (([1, 2, 3] : List Rat).length - 1) 0 =
          gaussC0 * ([1, 2, 3] : List Rat).getD (([1, 2, 3] : List Rat).length - 2) 0 +
            (gaussC1 + gaussC0) *
              ([1, 2, 3] : List Rat).getD (([1, 2, 3] : List Rat).length - 1) 0) :=
  ⟨by decide, (claim_C8 [1, 2, 3]).2 (by decide)⟩

/-! ## Claim C9: downsampler output length -/

set_option maxRecDepth 40000 in
/-- C9: the claimed output-length law
`manualDownsample(x, sr, tgt).length = floor(x.length * tgt / sr)` fails on
the code.  At 35 input samples with `sr = 7`, `tgt = 3`, binary64
arithmetic rounds `7 / 3` up to `2.3333333333333335`, the division
`35 / ratio` evaluates to `14.999999999999998`, and `Math.floor` yields 14
output samples — one fewer than the `floor(35 * 3 / 7) = 15` the claim (and
the output-length law stated by the repository documentation) requires. -/
theorem claim_C9 :
    (manualDownsample (List.replicate 35 (0 : ℝ)) 7 3).length = 14 ∧
      (List.replicate 35 (0 : ℝ)).length * 3 / 7 = 15 := by
  constructor
  · simp only [manualDownsample, List.length_map, List.length_range, List.length_replicate]
    with_unfolding_all decide
  · simp

end SP3

